import Mathlib

/-!
Verification of the minimal GCN implementation in
`notebooks/01_GNN_intro.ipynb` (classes `SimpleGCNLayer` and `SimpleGCN`).

The tensor scalars are modelled as an idealized floating-point domain
`Flt`: an exact real number, `inf`, `neginf`, or `nan`, with the IEEE-754
special-value propagation rules for the operations the notebook uses
(no rounding and no overflow are modelled; real arithmetic is exact).
Matrices are total functions out of `Fin`, so all shape information lives
in the types.
-/

namespace GNN

noncomputable section

/-- Idealized floating-point value: a finite real, `+inf`, `-inf` or `nan`. -/
inductive Flt where
  | fin (x : ℝ)
  | inf
  | neginf
  | nan

/-- IEEE-style addition on `Flt` (exact on finite values, `nan` absorbing,
`inf + neginf = nan`). -/
def Flt.add : Flt → Flt → Flt
  | .nan, _ => .nan
  | _, .nan => .nan
  | .fin x, .fin y => .fin (x + y)
  | .fin _, .inf => .inf
  | .inf, .fin _ => .inf
  | .inf, .inf => .inf
  | .inf, .neginf => .nan
  | .neginf, .inf => .nan
  | .neginf, .neginf => .neginf
  | .fin _, .neginf => .neginf
  | .neginf, .fin _ => .neginf

/-- IEEE-style multiplication on `Flt` (exact on finite values, `nan`
absorbing, `0 * inf = nan`, signed infinities otherwise). -/
def Flt.mul : Flt → Flt → Flt
  | .nan, _ => .nan
  | _, .nan => .nan
  | .fin x, .fin y => .fin (x * y)
  | .fin x, .inf => if 0 < x then .inf else if x < 0 then .neginf else .nan
  | .inf, .fin x => if 0 < x then .inf else if x < 0 then .neginf else .nan
  | .fin x, .neginf => if 0 < x then .neginf else if x < 0 then .inf else .nan
  | .neginf, .fin x => if 0 < x then .neginf else if x < 0 then .inf else .nan
  | .inf, .inf => .inf
  | .inf, .neginf => .neginf
  | .neginf, .inf => .neginf
  | .neginf, .neginf => .inf

/-- `torch.nn.functional.relu`: `max(x, 0)` elementwise; `relu nan = nan`,
`relu inf = inf`, `relu (-inf) = 0`. -/
def Flt.relu : Flt → Flt
  | .fin x => .fin (max x 0)
  | .inf => .inf
  | .neginf => .fin 0
  | .nan => .nan

/-- A value is finite when it is neither an infinity nor `nan`. -/
def Flt.isFinite : Flt → Bool
  | .fin _ => true
  | _ => false

/-- `torch.isnan`. -/
def Flt.isNan : Flt → Bool
  | .nan => true
  | _ => false

/-- Left fold summation with initial value `0.0`, modelling the reduction
performed by `torch.mm` along the contracted dimension. -/
def fsum (l : List Flt) : Flt := l.foldr Flt.add (Flt.fin 0)

/-- `torch.mm`: matrix product of `Flt` matrices. -/
def mmul {n m p : ℕ} (a : Fin n → Fin m → Flt) (b : Fin m → Fin p → Flt) :
    Fin n → Fin p → Flt :=
  fun i j => fsum (List.ofFn fun k => Flt.mul (a i k) (b k j))

/-- Embed a real matrix (e.g. an input tensor holding only finite values)
into `Flt` matrices. -/
def toFltM {n m : ℕ} (a : Fin n → Fin m → ℝ) : Fin n → Fin m → Flt :=
  fun i j => Flt.fin (a i j)

/-- `degree = torch.sum(adj, dim=1, keepdim=True)`: row sums of the
adjacency matrix. -/
def degree {n : ℕ} (adj : Fin n → Fin n → ℝ) (i : Fin n) : ℝ := ∑ j, adj i j

/-- `torch.pow(d, -0.5)` on a finite float `d`: `d^(-1/2)` for `d > 0`,
`+inf` at `d = 0`, and `nan` for `d < 0` (negative base with non-integer
exponent). -/
def powNegHalf (d : ℝ) : Flt :=
  if d < 0 then Flt.nan else if d = 0 then Flt.inf else Flt.fin (Real.sqrt d)⁻¹

/-- `degree_inv_sqrt[torch.isinf(degree_inv_sqrt)] = 0.0`: the masked
assignment replaces the two infinities by `0.0` and leaves every other
value (including `nan`) untouched. -/
def clampInf : Flt → Flt
  | .inf => .fin 0
  | .neginf => .fin 0
  | v => v

/-- The per-row scaling factor the layer builds: `pow(degree, -0.5)` with
infinities zeroed out. -/
def degInvSqrt {n : ℕ} (adj : Fin n → Fin n → ℝ) (i : Fin n) : Flt :=
  clampInf (powNegHalf (degree adj i))

/-- `adj_norm = degree_inv_sqrt * adj * degree_inv_sqrt.transpose(0, 1)`:
broadcasting of the `(N,1)` column against `adj` and then of the `(1,N)`
row, i.e. elementwise `(d_i * a_ij) * d_j`, evaluated left to right. -/
def normalizeAdj {n : ℕ} (adj : Fin n → Fin n → ℝ) : Fin n → Fin n → Flt :=
  fun i j => Flt.mul (Flt.mul (degInvSqrt adj i) (Flt.fin (adj i j))) (degInvSqrt adj j)

/-- `nn.Linear(in_features, out_features, bias=False)` applied to `x`:
`x @ w.t()` where `w` is the `(out, in)` weight tensor; no bias term. -/
def linearNoBias {n din dout : ℕ} (w : Fin dout → Fin din → ℝ)
    (x : Fin n → Fin din → Flt) : Fin n → Fin dout → Flt :=
  mmul x (fun k o => Flt.fin (w o k))

/-- `SimpleGCNLayer.forward(x, adj)`: normalize the adjacency, aggregate
with `torch.mm`, then project with the bias-free linear map. -/
def layerForward {n din dout : ℕ} (w : Fin dout → Fin din → ℝ)
    (x : Fin n → Fin din → Flt) (adj : Fin n → Fin n → ℝ) :
    Fin n → Fin dout → Flt :=
  linearNoBias w (mmul (normalizeAdj adj) x)

/-- Elementwise `F.relu` on a matrix. -/
def reluM {n m : ℕ} (x : Fin n → Fin m → Flt) : Fin n → Fin m → Flt :=
  fun i j => (x i j).relu

/-- `SimpleGCN.forward(x, adj)`: layer 1, `F.relu`, layer 2; the adjacency
is passed to both layers exactly as received. -/
def gcnForward {n din h c : ℕ} (w1 : Fin h → Fin din → ℝ) (w2 : Fin c → Fin h → ℝ)
    (x : Fin n → Fin din → ℝ) (adj : Fin n → Fin n → ℝ) : Fin n → Fin c → Flt :=
  layerForward w2 (reluM (layerForward w1 (toFltM x) adj)) adj

/-- Modelled from the spec: the self-loop addition `Ã = A + I` that §4.4
attributes to the two-layer forward pass (in the notebook it is performed
by the caller when building `adj_toy`, not inside `forward`). -/
def selfLoop {n : ℕ} (adj : Fin n → Fin n → ℝ) : Fin n → Fin n → ℝ :=
  fun i j => adj i j + (if i = j then (1 : ℝ) else 0)

/-- Spec-side single layer of §4.3: given an already-normalized adjacency
`anorm`, aggregate by matrix product and project (no bias, no
nonlinearity). -/
def specLayer {n din dout : ℕ} (w : Fin dout → Fin din → ℝ)
    (x : Fin n → Fin din → Flt) (anorm : Fin n → Fin n → Flt) :
    Fin n → Fin dout → Flt :=
  linearNoBias w (mmul anorm x)

/-- Spec-side two-layer stack of §4.4 applied to a fixed normalized
adjacency `anorm`: layer 1, rectifier, layer 2, reusing `anorm` for both
layers. -/
def specTwoLayerOn {n din h c : ℕ} (w1 : Fin h → Fin din → ℝ)
    (w2 : Fin c → Fin h → ℝ) (x : Fin n → Fin din → ℝ)
    (anorm : Fin n → Fin n → Flt) : Fin n → Fin c → Flt :=
  specLayer w2 (reluM (specLayer w1 (toFltM x) anorm)) anorm

/-- Spec-side design of §4.4: normalize the (already self-looped)
adjacency once and reuse the result for both layers. -/
def normOnceForward {n din h c : ℕ} (w1 : Fin h → Fin din → ℝ)
    (w2 : Fin c → Fin h → ℝ) (x : Fin n → Fin din → ℝ)
    (adj : Fin n → Fin n → ℝ) : Fin n → Fin c → Flt :=
  specTwoLayerOn w1 w2 x (normalizeAdj adj)

/-- Spec-side per-node output of §8's disconnected-graph scenario: row `i`
of the two-layer output is `relu(x_i · W1) · W2`, where the mathematical
weight `W` of shape `(d_in, d_out)` is the transpose of the stored
`(out, in)` tensor. -/
def perNode {din h c : ℕ} (w1 : Fin h → Fin din → ℝ) (w2 : Fin c → Fin h → ℝ)
    (xi : Fin din → ℝ) : Fin c → ℝ :=
  fun o => ∑ k, max (∑ m, xi m * w1 k m) 0 * w2 o k

/-- The caller-owned input tensors of one `SimpleGCN.forward` call. -/
structure GCNInput (n din : ℕ) where
  x : Fin n → Fin din → ℝ
  adj : Fin n → Fin n → ℝ

/-- State-passing form of `SimpleGCN.forward`: the call returns its output
together with the input tensors as the code leaves them. Every tensor
operation in the source allocates a fresh result except the masked
assignment `degree_inv_sqrt[...] = 0.0`, which writes only to the fresh
tensor returned by `torch.pow`, so `x` and `adj` come back as received. -/
def gcnForwardS {n din h c : ℕ} (w1 : Fin h → Fin din → ℝ)
    (w2 : Fin c → Fin h → ℝ) (s : GCNInput n din) :
    (Fin n → Fin c → Flt) × GCNInput n din :=
  (gcnForward w1 w2 s.x s.adj, { x := s.x, adj := s.adj })

/-- The N×N identity matrix over the reals, the value §8 requires the
normalizer to produce on the self-looped disconnected graph. -/
def idM {n : ℕ} : Fin n → Fin n → ℝ := fun i j => if i = j then 1 else 0

/-- Concrete 1×1 all-zero real matrix. -/
def zeroM1 : Fin 1 → Fin 1 → ℝ := fun _ _ => 0

/-- Concrete 1×1 all-one real matrix. -/
def oneM1 : Fin 1 → Fin 1 → ℝ := fun _ _ => 1

/-- Concrete 1×1 matrix holding `-1`. -/
def negM1 : Fin 1 → Fin 1 → ℝ := fun _ _ => -1

end

/-! ## Basic lemmas about the `Flt` arithmetic -/

@[simp]
theorem Flt.nan_mul (v : Flt) : Flt.mul Flt.nan v = Flt.nan := by
  cases v <;> rfl

@[simp]
theorem Flt.mul_nan (v : Flt) : Flt.mul v Flt.nan = Flt.nan := by
  cases v <;> rfl

@[simp]
theorem Flt.fin_mul_fin (x y : ℝ) :
    Flt.mul (Flt.fin x) (Flt.fin y) = Flt.fin (x * y) := rfl

@[simp]
theorem Flt.fin_add_fin (x y : ℝ) :
    Flt.add (Flt.fin x) (Flt.fin y) = Flt.fin (x + y) := rfl

@[simp]
theorem Flt.add_fin_zero (v : Flt) : Flt.add v (Flt.fin 0) = v := by
  cases v <;> simp [Flt.add]

@[simp]
theorem Flt.nan_add (v : Flt) : Flt.add Flt.nan v = Flt.nan := by
  cases v <;> rfl

@[simp]
theorem Flt.relu_fin (x : ℝ) : (Flt.fin x).relu = Flt.fin (max x 0) := rfl

@[simp]
theorem clampInf_fin (x : ℝ) : clampInf (Flt.fin x) = Flt.fin x := rfl

@[simp]
theorem clampInf_nan : clampInf Flt.nan = Flt.nan := rfl

@[simp]
theorem fsum_nil : fsum [] = Flt.fin 0 := rfl

@[simp]
theorem fsum_cons (v : Flt) (l : List Flt) :
    fsum (v :: l) = Flt.add v (fsum l) := rfl

theorem fsum_fin {n : ℕ} (f : Fin n → ℝ) :
    fsum (List.ofFn fun k => Flt.fin (f k)) = Flt.fin (∑ k, f k) := by
  induction n with
  | zero => simp
  | succ m ih =>
      rw [List.ofFn_succ, fsum_cons, ih, Fin.sum_univ_succ, Flt.fin_add_fin]

theorem mmul_fin {n m p : ℕ} (a : Fin n → Fin m → ℝ) (b : Fin m → Fin p → ℝ) :
    mmul (toFltM a) (toFltM b) = toFltM (fun i j => ∑ k, a i k * b k j) := by
  funext i j
  simp only [mmul, toFltM, Flt.fin_mul_fin]
  exact fsum_fin fun k => a i k * b k j

theorem reluM_fin {n m : ℕ} (a : Fin n → Fin m → ℝ) :
    reluM (toFltM a) = toFltM (fun i j => max (a i j) 0) := by
  funext i j
  simp [reluM, toFltM]

theorem linearNoBias_fin {n din dout : ℕ} (w : Fin dout → Fin din → ℝ)
    (a : Fin n → Fin din → ℝ) :
    linearNoBias w (toFltM a) = toFltM (fun i o => ∑ k, a i k * w o k) := by
  unfold linearNoBias
  have hw : (fun k o => Flt.fin (w o k)) = toFltM (fun k o => w o k) := rfl
  rw [hw, mmul_fin]

theorem mmul_id_fin {n p : ℕ} (b : Fin n → Fin p → ℝ) :
    mmul (toFltM (idM (n := n))) (toFltM b) = toFltM b := by
  rw [mmul_fin]
  funext i j
  simp [toFltM, idM, ite_mul, Finset.sum_ite_eq]

theorem selfLoop_zero_eq_id {n : ℕ} :
    selfLoop (fun _ _ => (0 : ℝ)) = idM (n := n) := by
  funext i j
  simp [selfLoop, idM]

theorem degree_id {n : ℕ} (i : Fin n) : degree (idM (n := n)) i = 1 := by
  simp [degree, idM, Finset.sum_ite_eq]

theorem degInvSqrt_id {n : ℕ} (i : Fin n) :
    degInvSqrt (idM (n := n)) i = Flt.fin 1 := by
  unfold degInvSqrt powNegHalf
  rw [degree_id i, if_neg (by norm_num), if_neg (by norm_num)]
  simp

theorem normalizeAdj_id {n : ℕ} :
    normalizeAdj (idM (n := n)) = toFltM (idM (n := n)) := by
  funext i j
  unfold normalizeAdj
  rw [degInvSqrt_id i, degInvSqrt_id j]
  simp [toFltM]

theorem gcnForward_id {n din h c : ℕ} (w1 : Fin h → Fin din → ℝ)
    (w2 : Fin c → Fin h → ℝ) (x : Fin n → Fin din → ℝ) (i : Fin n) (o : Fin c) :
    gcnForward w1 w2 x (idM (n := n)) i o = Flt.fin (perNode w1 w2 (x i) o) := by
  unfold gcnForward layerForward
  rw [normalizeAdj_id, mmul_id_fin, linearNoBias_fin, reluM_fin, mmul_id_fin,
    linearNoBias_fin]
  simp [toFltM, perNode]

theorem degInvSqrt_fin_of_nonneg {n : ℕ} (adj : Fin n → Fin n → ℝ) (i : Fin n)
    (h : 0 ≤ degree adj i) : ∃ r, degInvSqrt adj i = Flt.fin r := by
  unfold degInvSqrt powNegHalf
  rcases eq_or_lt_of_le h with h0 | hpos
  · rw [← h0]
    simp [clampInf]
  · rw [if_neg (not_lt.mpr h), if_neg (ne_of_gt hpos)]
    exact ⟨_, rfl⟩

theorem degInvSqrt_fin_or_nan {n : ℕ} (adj : Fin n → Fin n → ℝ) (i : Fin n) :
    (∃ r, degInvSqrt adj i = Flt.fin r) ∨ degInvSqrt adj i = Flt.nan := by
  rcases lt_or_le (degree adj i) 0 with hneg | hnn
  · right
    unfold degInvSqrt powNegHalf
    rw [if_pos hneg]
    rfl
  · exact Or.inl (degInvSqrt_fin_of_nonneg adj i hnn)

theorem degree_nonneg_of_entries {n : ℕ} (adj : Fin n → Fin n → ℝ)
    (h : ∀ i j, 0 ≤ adj i j) (i : Fin n) : 0 ≤ degree adj i :=
  Finset.sum_nonneg fun j _ => h i j

/-! ## The claims -/

/-- Claim C2: for every adjacency matrix `A` the normalizer returns the
matrix with entries `d_inv_sqrt[i] * A[i,j] * d_inv_sqrt[j]`, where `d[i]`
is the row sum `Σ_j A[i,j]` and `d_inv_sqrt` is `d^(-0.5)` with
infinities replaced by `0` — elementwise outer-product scaling, not a
matrix product. -/
theorem C2_normalizer_entrywise {n : ℕ} (adj : Fin n → Fin n → ℝ) (i j : Fin n) :
    normalizeAdj adj i j =
      Flt.mul (Flt.mul (clampInf (powNegHalf (∑ k, adj i k))) (Flt.fin (adj i j)))
        (clampInf (powNegHalf (∑ k, adj j k))) := rfl

/-- Claim C4: a single GCN layer returns exactly `(A_norm · X) · W` —
aggregate by matrix product, then linearly project with the transpose of
the stored `(out, in)` weight tensor — with no bias term and no
nonlinearity; the `(N × d_out)` shape is carried by the types. -/
theorem C4_layer_is_aggregate_then_project {n din dout : ℕ}
    (w : Fin dout → Fin din → ℝ) (x : Fin n → Fin din → Flt)
    (adj : Fin n → Fin n → ℝ) :
    layerForward w x adj =
      mmul (mmul (normalizeAdj adj) x) (fun k o => Flt.fin (w o k)) := rfl

/-- Claim C5: normalizing the adjacency once and reusing the result for
both layers is behaviorally identical to `SimpleGCN.forward`, which lets
each layer recompute the normalization of the same adjacency. -/
theorem C5_normalize_once_equals_per_layer {n din h c : ℕ}
    (w1 : Fin h → Fin din → ℝ) (w2 : Fin c → Fin h → ℝ)
    (x : Fin n → Fin din → ℝ) (adj : Fin n → Fin n → ℝ) :
    normOnceForward w1 w2 x adj = gcnForward w1 w2 x adj := rfl

/-- Claim C9: the forward pass is pure — the call hands the input tensors
back unchanged, and the output is a function of `(X, A, W1, W2)` only, so
two calls on equal inputs return equal outputs. -/
theorem C9_forward_pure {n din h c : ℕ} (w1 : Fin h → Fin din → ℝ)
    (w2 : Fin c → Fin h → ℝ) (s t : GCNInput n din)
    (hx : s.x = t.x) (ha : s.adj = t.adj) :
    (gcnForwardS w1 w2 s).2 = s ∧
      (gcnForwardS w1 w2 s).1 = (gcnForwardS w1 w2 t).1 := by
  refine ⟨rfl, ?_⟩
  simp only [gcnForwardS, hx, ha]

/-- Witness for C9 at a concrete 1-node input. -/
theorem C9_forward_pure_witness :
    (gcnForwardS oneM1 oneM1 ⟨oneM1, zeroM1⟩).2 = ⟨oneM1, zeroM1⟩ ∧
      (gcnForwardS oneM1 oneM1 ⟨oneM1, zeroM1⟩).1 =
        (gcnForwardS oneM1 oneM1 ⟨oneM1, zeroM1⟩).1 :=
  C9_forward_pure oneM1 oneM1 ⟨oneM1, zeroM1⟩ ⟨oneM1, zeroM1⟩ rfl rfl

/-- Claim C3: for every adjacency input (nonnegative entries, as an
adjacency matrix has) and every row `i` with zero row sum, the normalizer
substitutes `0.0` for the non-finite `d[i]^(-0.5)` and row `i` of the
normalized matrix is entirely zero. -/
theorem C3_zero_degree_row_is_zeroed {n : ℕ} (adj : Fin n → Fin n → ℝ)
    (hnn : ∀ i j, 0 ≤ adj i j) (i : Fin n) (hz : degree adj i = 0) :
    degInvSqrt adj i = Flt.fin 0 ∧ ∀ j, normalizeAdj adj i j = Flt.fin 0 := by
  have hdi : degInvSqrt adj i = Flt.fin 0 := by
    unfold degInvSqrt powNegHalf
    rw [hz]
    simp [clampInf]
  refine ⟨hdi, fun j => ?_⟩
  obtain ⟨r, hr⟩ := degInvSqrt_fin_of_nonneg adj j (degree_nonneg_of_entries adj hnn j)
  unfold normalizeAdj
  rw [hdi, hr]
  simp

/-- Witness for C3: the 1×1 zero adjacency has a zero-degree row and its
normalized row is zero. -/
theorem C3_zero_degree_row_is_zeroed_witness :
    (0 : ℝ) ≤ zeroM1 0 0 ∧ degree zeroM1 0 = 0 ∧
      normalizeAdj zeroM1 0 0 = Flt.fin 0 :=
  ⟨le_refl 0, by simp [degree, zeroM1],
    (C3_zero_degree_row_is_zeroed zeroM1 (fun _ _ => le_refl 0) 0
      (by simp [degree, zeroM1])).2 0⟩

/-- Claim C6: for every adjacency matrix (nonnegative entries) with at
least one nonzero row, the normalized matrix contains no NaN and no
infinite value — every entry is finite. -/
theorem C6_normalized_entries_finite {n : ℕ} (adj : Fin n → Fin n → ℝ)
    (hnn : ∀ i j, 0 ≤ adj i j) (_hnz : ∃ i j, adj i j ≠ 0) :
    ∀ i j, (normalizeAdj adj i j).isFinite = true := by
  intro i j
  obtain ⟨ri, hi⟩ := degInvSqrt_fin_of_nonneg adj i (degree_nonneg_of_entries adj hnn i)
  obtain ⟨rj, hj⟩ := degInvSqrt_fin_of_nonneg adj j (degree_nonneg_of_entries adj hnn j)
  unfold normalizeAdj
  rw [hi, hj]
  simp [Flt.isFinite]

/-- Witness for C6: the 1×1 all-one adjacency is nonnegative with a
nonzero row, and its normalized entry is finite. -/
theorem C6_normalized_entries_finite_witness :
    (0 : ℝ) ≤ oneM1 0 0 ∧ oneM1 0 0 ≠ 0 ∧
      (normalizeAdj oneM1 0 0).isFinite = true :=
  ⟨by norm_num [oneM1], by norm_num [oneM1],
    C6_normalized_entries_finite oneM1 (fun _ _ => by norm_num [oneM1])
      ⟨0, 0, by norm_num [oneM1]⟩ 0 0⟩

/-- Claim C7: the normalizer maps symmetric adjacency matrices to
symmetric outputs. -/
theorem C7_normalizer_preserves_symmetry {n : ℕ} (adj : Fin n → Fin n → ℝ)
    (hsym : ∀ i j, adj i j = adj j i) (i j : Fin n) :
    normalizeAdj adj i j = normalizeAdj adj j i := by
  unfold normalizeAdj
  rw [hsym i j]
  rcases degInvSqrt_fin_or_nan adj i with ⟨ri, hi⟩ | hi <;>
    rcases degInvSqrt_fin_or_nan adj j with ⟨rj, hj⟩ | hj <;>
    rw [hi, hj] <;> simp <;> ring

/-- Witness for C7: the 1×1 all-one adjacency is symmetric and the
normalized output agrees with its transpose. -/
theorem C7_normalizer_preserves_symmetry_witness :
    oneM1 0 0 = oneM1 0 0 ∧ normalizeAdj oneM1 0 0 = normalizeAdj oneM1 0 0 :=
  ⟨rfl, C7_normalizer_preserves_symmetry oneM1 (fun _ _ => rfl) 0 0⟩

/-- Claim C10: the defensive substitution replaces only infinities. For
every adjacency with nonnegative row sums the output is NaN-free, but at
the concrete input `[[-1]]` the intermediate `degree^(-0.5)` is NaN, the
infinity mask leaves it untouched, and it propagates into the returned
matrix. -/
theorem C10_only_infinities_replaced {n : ℕ} (adj : Fin n → Fin n → ℝ)
    (hd : ∀ i, 0 ≤ degree adj i) :
    (∀ i j, (normalizeAdj adj i j).isNan = false) ∧
      powNegHalf (degree negM1 0) = Flt.nan ∧
      clampInf (powNegHalf (degree negM1 0)) = Flt.nan ∧
      normalizeAdj negM1 0 0 = Flt.nan := by
  have hdeg : degree negM1 0 = -1 := by simp [degree, negM1]
  have hpow : powNegHalf (degree negM1 0) = Flt.nan := by
    rw [hdeg]
    unfold powNegHalf
    rw [if_pos (by norm_num)]
  have hclamp : degInvSqrt negM1 0 = Flt.nan := by
    unfold degInvSqrt
    rw [hpow, clampInf_nan]
  refine ⟨?_, hpow, by rw [hpow, clampInf_nan], ?_⟩
  · intro i j
    obtain ⟨ri, hi⟩ := degInvSqrt_fin_of_nonneg adj i (hd i)
    obtain ⟨rj, hj⟩ := degInvSqrt_fin_of_nonneg adj j (hd j)
    unfold normalizeAdj
    rw [hi, hj]
    simp [Flt.isNan]
  · unfold normalizeAdj
    rw [hclamp]
    simp

/-- Witness for C10: the 1×1 all-one adjacency has nonnegative row sums
and a NaN-free output, while the `[[-1]]` input yields a NaN entry. -/
theorem C10_only_infinities_replaced_witness :
    (0 : ℝ) ≤ degree oneM1 0 ∧
      (normalizeAdj oneM1 0 0).isNan = false ∧
      normalizeAdj negM1 0 0 = Flt.nan :=
  ⟨by simp [degree, oneM1],
    (C10_only_infinities_replaced oneM1 (fun i => by simp [degree, oneM1])).1 0 0,
    (C10_only_infinities_replaced oneM1 (fun i => by simp [degree, oneM1])).2.2.2⟩

/-- Claim C8: on the fully disconnected graph, self-loop addition followed
by normalization yields exactly the identity matrix, and row `i` of the
two-layer output is `relu(x_i · W1) · W2`, a function of node `i`'s own
features alone. -/
theorem C8_disconnected_graph_identity {n din h c : ℕ} (w1 : Fin h → Fin din → ℝ)
    (w2 : Fin c → Fin h → ℝ) (x : Fin n → Fin din → ℝ) :
    (∀ i j : Fin n, normalizeAdj (selfLoop (fun _ _ => (0 : ℝ))) i j =
        if i = j then Flt.fin 1 else Flt.fin 0) ∧
      ∀ i o, gcnForward w1 w2 x (selfLoop (fun _ _ => (0 : ℝ))) i o =
        Flt.fin (perNode w1 w2 (x i) o) := by
  constructor
  · intro i j
    rw [selfLoop_zero_eq_id, normalizeAdj_id]
    by_cases hij : i = j <;> simp [toFltM, idM, hij]
  · intro i o
    rw [selfLoop_zero_eq_id, gcnForward_id]

/-- Counterexample to claim C1: with one node, all-ones features and
weights, and the raw (no self-loop) zero adjacency, `SimpleGCN.forward`
returns `0`, whereas the two-layer composition on the self-looped
normalized adjacency returns `1` — the forward pass does not itself add
self-loops. -/
theorem C1_counterexample :
    gcnForward oneM1 oneM1 oneM1 zeroM1 0 0 ≠
      specTwoLayerOn oneM1 oneM1 oneM1 (normalizeAdj (selfLoop zeroM1)) 0 0 := by
  have hdeg0 : degree zeroM1 0 = 0 := by simp [degree, zeroM1]
  have hdinv0 : degInvSqrt zeroM1 0 = Flt.fin 0 := by
    unfold degInvSqrt powNegHalf
    rw [hdeg0]
    simp [clampInf]
  have hnorm0 : normalizeAdj zeroM1 = toFltM zeroM1 := by
    funext i j
    have hi : i = 0 := Subsingleton.elim i 0
    have hj : j = 0 := Subsingleton.elim j 0
    subst hi
    subst hj
    unfold normalizeAdj
    rw [hdinv0]
    simp [toFltM, zeroM1]
  have hL : gcnForward oneM1 oneM1 oneM1 zeroM1 0 0 = Flt.fin 0 := by
    unfold gcnForward layerForward
    rw [hnorm0, mmul_fin, linearNoBias_fin, reluM_fin, mmul_fin, linearNoBias_fin]
    simp [toFltM, zeroM1, oneM1]
  have hA1 : selfLoop zeroM1 = idM (n := 1) := selfLoop_zero_eq_id
  have hR : specTwoLayerOn oneM1 oneM1 oneM1 (normalizeAdj (selfLoop zeroM1)) 0 0 =
      Flt.fin 1 := by
    show gcnForward oneM1 oneM1 oneM1 (selfLoop zeroM1) 0 0 = Flt.fin 1
    rw [hA1, gcnForward_id]
    have hmax : max ((1 : ℝ) * 1) 0 = 1 := by norm_num
    simp [perNode, oneM1]
  rw [hL, hR]
  simp

/-- Claim C1 as amended: `SimpleGCN.forward` performs no self-loop
addition; self-loops are the caller's responsibility (the layer docstring
and the toy example both place `Ã = A + I` outside `forward`). When the
caller supplies `Ã = A + I`, the forward pass equals the two-layer
composition applied to the normalized self-looped adjacency. -/
theorem C1_amended_selfloops_added_by_caller {n din h c : ℕ}
    (w1 : Fin h → Fin din → ℝ) (w2 : Fin c → Fin h → ℝ)
    (x : Fin n → Fin din → ℝ) (adj : Fin n → Fin n → ℝ) :
    gcnForward w1 w2 x (selfLoop adj) =
      specTwoLayerOn w1 w2 x (normalizeAdj (selfLoop adj)) := rfl

end GNN
